import Mathlib

/-!
Verification of the glyph-atlas builder (`src/atlas.rs`).

The Rust module maintains an `AtlasBuilder` holding a rectangle packer, a
dense array of GPU-visible `ImageDescriptor`s and a parallel list of
host-side `ImageMetadata`.  `pack_glyph` appends one descriptor/metadata
pair per successful pack; `create_atlas` sorts the metadata by
`glyph_index`, greedily merges per-slot geometry-index ranges into draw
batches and uploads the descriptors; `glyph_index_for` binary-searches the
metadata by `glyph_id`; `atlas_rect` reads back a packed rectangle.

External collaborators (the shelf packer `RectPacker`, the outline source
`OutlineBuilder`'s rasterisation, the GL device) are modelled at their
interface boundary: the packer's per-call answer and the outline source's
reported (already ceiled) pixel size enter as oracle data in `PackInput`,
and the outline source's index table is the `OutlineBuilder` structure
below, mirroring the two fields `create_atlas` reads.
-/

namespace Pathfinder

/-- `ImageDescriptor` from `atlas.rs`: four `u32` fields.  Machine
integers are modelled as `Nat`; no arithmetic in the module can overflow a
`u32` other than the fixed-point encoding of `point_size`, which is
performed in floating point by the Rust code and therefore enters the
model as an oracle value (`PackInput.point_size_enc`). -/
structure ImageDescriptor where
  atlas_x : Nat
  atlas_y : Nat
  point_size : Nat
  glyph_index : Nat
deriving Repr, DecidableEq

/-- `ImageDescriptor::default()`: all fields zero. -/
instance : Inhabited ImageDescriptor := ⟨⟨0, 0, 0, 0⟩⟩

/-- `ImageMetadata` from `atlas.rs`.  `atlas_size` is the `Size2D<u32>`
(width, height); `glyph_id` is the `u16` stable glyph identifier. -/
structure ImageMetadata where
  atlas_size : Nat × Nat
  glyph_index : Nat
  glyph_id : Nat
deriving Repr, DecidableEq

instance : Inhabited ImageMetadata := ⟨⟨(0, 0), 0, 0⟩⟩

/-- Builder state: the two growing vectors of `AtlasBuilder`.  The
`RectPacker` field is external state; its per-call behaviour is supplied
as an oracle in each `PackInput`, so it does not appear here. -/
structure AtlasBuilder where
  image_descriptors : List ImageDescriptor
  image_metadata : List ImageMetadata
deriving Repr, DecidableEq

/-- `AtlasBuilder::new`: both vectors start empty. -/
def AtlasBuilder.new : AtlasBuilder :=
  { image_descriptors := [], image_metadata := [] }

/-- One call to `pack_glyph`, with the external collaborators' answers
recorded as data:
`pixel_size` is `glyph_pixel_bounds(..).size.ceil().cast().unwrap()` (the
outline source's reported bounds, already ceiled to integers — the float
ceiling happens outside this module's integer world);
`glyph_id` is `outline_builder.glyph_id(glyph_index)`;
`point_size_enc` is `(point_size * 65536.0) as u32`;
`pack_result` is the shelf packer's answer: `some origin` or `none` when
the packer is out of space. -/
structure PackInput where
  pixel_size : Nat × Nat
  glyph_id : Nat
  point_size_enc : Nat
  pack_result : Option (Nat × Nat)
deriving Repr, DecidableEq

instance : Inhabited PackInput := ⟨⟨(0, 0), 0, 0, none⟩⟩

/-- The `while self.image_descriptors.len() < glyph_index as usize + 1`
loop of `pack_glyph`: push `ImageDescriptor::default()` until the vector
has length at least `target`. -/
def extendDescriptors (l : List ImageDescriptor) (target : Nat) : List ImageDescriptor :=
  if l.length < target then extendDescriptors (l ++ [default]) target else l
termination_by target - l.length
decreasing_by simp; omega

/-- `AtlasBuilder::pack_glyph`.  Returns the Rust call's `Result<(), ()>`
together with the builder state after the call.  On packer failure the
`try!` returns early, leaving the builder untouched; on success the next
dense slot index (the current descriptor count) is assigned, the
descriptor vector is extended and overwritten at that index, and one
metadata entry is appended. -/
def pack_glyph (b : AtlasBuilder) (inp : PackInput) : Except Unit Unit × AtlasBuilder :=
  match inp.pack_result with
  | none => (.error (), b)
  | some atlas_origin =>
      let glyph_index := b.image_descriptors.length
      let descs := extendDescriptors b.image_descriptors (glyph_index + 1)
      let descs := descs.set glyph_index
        { atlas_x := atlas_origin.1, atlas_y := atlas_origin.2,
          point_size := inp.point_size_enc, glyph_index := glyph_index }
      let metas := b.image_metadata ++
        [{ atlas_size := inp.pixel_size, glyph_index := glyph_index,
           glyph_id := inp.glyph_id }]
      (.ok (), { image_descriptors := descs, image_metadata := metas })

/-- A sequence of `pack_glyph` calls, threading the builder state. -/
def runPacks (b : AtlasBuilder) : List PackInput → AtlasBuilder
  | [] => b
  | inp :: rest => runPacks (pack_glyph b inp).2 rest

/-- The successful calls of a pack sequence, each paired with the origin
the shelf packer returned for it. -/
def successList : List PackInput → List (PackInput × (Nat × Nat))
  | [] => []
  | inp :: rest =>
      match inp.pack_result with
      | none => successList rest
      | some o => (inp, o) :: successList rest

/-- The slot index each successful call receives (the descriptor count at
the moment of the call), in call order. -/
def assignedSlots (b : AtlasBuilder) : List PackInput → List Nat
  | [] => []
  | inp :: rest =>
      match inp.pack_result with
      | none => assignedSlots (pack_glyph b inp).2 rest
      | some _ => b.image_descriptors.length :: assignedSlots (pack_glyph b inp).2 rest

/-- One entry of `outline_builder.descriptors`, restricted to the field
`create_atlas` reads. -/
structure OutlineDescriptor where
  start_index : Nat
deriving Repr, DecidableEq

instance : Inhabited OutlineDescriptor := ⟨⟨0⟩⟩

/-- The part of the outline source that `create_atlas` consults: the
per-glyph descriptor table and the total length of the shared
geometry-index buffer (`outline_builder.indices.len()`). -/
structure OutlineBuilder where
  descriptors : List OutlineDescriptor
  indices_len : Nat
deriving Repr, DecidableEq

/-- `outline_builder.descriptors[glyph_index as usize].start_index`.  The
Rust indexing panics out of bounds; theorems that depend on this value
carry the bound as a hypothesis and the default is never reached there. -/
def firstIndexOf (ob : OutlineBuilder) (i : Nat) : Nat :=
  (ob.descriptors.getD i default).start_index

/-- `outline_builder.descriptors.get(glyph_index as usize + 1)`, falling
back to `outline_builder.indices.len()` — the implied end offset of the
slot's range. -/
def lastIndexOf (ob : OutlineBuilder) (i : Nat) : Nat :=
  match ob.descriptors[i + 1]? with
  | some d => d.start_index
  | none => ob.indices_len

/-- The geometry-index range the outline source assigns to slot `i`:
start offset and implied end offset. -/
def slotRange (ob : OutlineBuilder) (i : Nat) : Nat × Nat :=
  (firstIndexOf ob i, lastIndexOf ob i)

/-- The range-merge loop of `create_atlas`, fused with its final flush.
`cur` is `current_range`; the output list pairs each `start_indices` push
with the matching `counts` push, in push order, so the returned list of
`(start, count)` pairs is `start_indices.zip counts` of the Rust code. -/
def mergeLoop (ob : OutlineBuilder) : List ImageMetadata → Option (Nat × Nat) → List (Nat × Nat)
  | [], none => []
  | [], some (cf, cl) => [(cf, cl - cf)]
  | m :: rest, cur =>
      let first_index := firstIndexOf ob m.glyph_index
      let last_index := lastIndexOf ob m.glyph_index
      match cur with
      | none => mergeLoop ob rest (some (first_index, last_index))
      | some (cf, cl) =>
          if first_index = cl then mergeLoop ob rest (some (cf, last_index))
          else (cf, cl - cf) :: mergeLoop ob rest (some (first_index, last_index))

/-- The same greedy merge, abstracted over the list of per-slot ranges the
loop extracts from the outline source (see `mergeLoop_eq_mergeRanges`). -/
def mergeRanges : List (Nat × Nat) → Option (Nat × Nat) → List (Nat × Nat)
  | [], none => []
  | [], some (cf, cl) => [(cf, cl - cf)]
  | (f, l) :: rest, none => mergeRanges rest (some (f, l))
  | (f, l) :: rest, some (cf, cl) =>
      if f = cl then mergeRanges rest (some (cf, l))
      else (cf, cl - cf) :: mergeRanges rest (some (f, l))

/-- `self.image_metadata.sort_by(|a, b| a.glyph_index.cmp(&b.glyph_index))`.
Rust's `sort_by` is a stable ascending sort; every stable sort computes
the same output list, and insertion sort is stable, so it serves as the
extensional model of the call. -/
def sortMetadata (l : List ImageMetadata) : List ImageMetadata :=
  List.insertionSort (fun a b => a.glyph_index ≤ b.glyph_index) l

/-- The finalized `Atlas`: the two parallel draw-batch vectors, the GL
buffer name and the packer's shelf configuration. -/
structure Atlas where
  start_indices : List Nat
  counts : List Nat
  images : Nat
  shelf_height : Nat
  shelf_columns : Nat
deriving Repr, DecidableEq

/-- `AtlasBuilder::create_atlas`.  Sorts the metadata in place, runs the
merge loop, and wraps the result.  `images`, `shelf_height` and
`shelf_columns` are the values the GL device and the rect packer hand
back; the GL calls report no failure to this function, so the Rust `Ok`
branch is the only exit (the `Result` error type is never produced).
Returns the call's result together with the mutated builder. -/
def create_atlas (b : AtlasBuilder) (ob : OutlineBuilder)
    (images shelf_height shelf_columns : Nat) : Except Unit Atlas × AtlasBuilder :=
  let metas := sortMetadata b.image_metadata
  let batches := mergeLoop ob metas none
  (.ok { start_indices := batches.map Prod.fst,
         counts := batches.map Prod.snd,
         images := images,
         shelf_height := shelf_height,
         shelf_columns := shelf_columns },
   { b with image_metadata := metas })

/-- The loop of Rust's `<[T]>::binary_search_by` specialised to the
comparator of `glyph_index_for`: halve the window `[left, right)` until
the probed key matches or the window empties. -/
def binarySearchBy (metas : List ImageMetadata) (glyph_id left right : Nat) : Option Nat :=
  if h : left < right then
    if (metas.getD (left + (right - left) / 2) default).glyph_id < glyph_id then
      binarySearchBy metas glyph_id (left + (right - left) / 2 + 1) right
    else if glyph_id < (metas.getD (left + (right - left) / 2) default).glyph_id then
      binarySearchBy metas glyph_id left (left + (right - left) / 2)
    else some (left + (right - left) / 2)
  else none
termination_by right - left
decreasing_by all_goals omega

/-- `AtlasBuilder::glyph_index_for`: binary-search the metadata by
`glyph_id` and return the matching entry's `glyph_index`. -/
def glyph_index_for (b : AtlasBuilder) (glyph_id : Nat) : Option Nat :=
  match binarySearchBy b.image_metadata glyph_id 0 b.image_metadata.length with
  | some i => some ((b.image_metadata.getD i default).glyph_index)
  | none => none

/-- `Rect<u32>`: origin and size. -/
structure AtlasRect where
  origin : Nat × Nat
  size : Nat × Nat
deriving Repr, DecidableEq

/-- `AtlasBuilder::atlas_rect`: origin from the descriptor, size from the
metadata, both at the given slot index.  The Rust indexing panics out of
bounds; theorems about this function carry `glyph_index < count`. -/
def atlas_rect (b : AtlasBuilder) (glyph_index : Nat) : AtlasRect :=
  { origin := ((b.image_descriptors.getD glyph_index default).atlas_x,
               (b.image_descriptors.getD glyph_index default).atlas_y),
    size := (b.image_metadata.getD glyph_index default).atlas_size }

/-- The builder invariant of the spec's data model: the two vectors have
equal length and position `i` stores slot index `i` in both. -/
def builderInv (b : AtlasBuilder) : Prop :=
  b.image_descriptors.length = b.image_metadata.length ∧
  (∀ i, i < b.image_descriptors.length →
    (b.image_descriptors.getD i default).glyph_index = i) ∧
  (∀ i, i < b.image_metadata.length →
    (b.image_metadata.getD i default).glyph_index = i)

instance (b : AtlasBuilder) : Decidable (builderInv b) := by
  unfold builderInv; infer_instance

/-- Spec-side notion: the index sequence a draw batch `(start, count)`
submits. -/
def batchIndices (batch : Nat × Nat) : List Nat :=
  List.range' batch.1 batch.2

/-- Spec-side notion: the index sequence of a slot range `(first, last)`. -/
def rangeIndices (r : Nat × Nat) : List Nat :=
  List.range' r.1 (r.2 - r.1)

/-- Spec-side notion: the packed glyphs' geometry, in slot-index order —
the concatenation of the per-slot index ranges. -/
def specGeometry (rs : List (Nat × Nat)) : List Nat :=
  rs.flatMap rangeIndices

/-- Spec-side notion (from the spec's words, for the refinement claims):
a batch list covers exactly the geometry of the slot ranges `rs`, in
slot-index order, when the indices its batches submit, concatenated in
batch order, are precisely the geometry sequence. -/
def SpecCovers (rs batches : List (Nat × Nat)) : Prop :=
  batches.flatMap batchIndices = specGeometry rs

instance (rs batches : List (Nat × Nat)) : Decidable (SpecCovers rs batches) := by
  unfold SpecCovers; infer_instance

/-- The descriptor a successful call `(inp, origin)` writes when it is
assigned slot `j`. -/
def descOf (s : PackInput × (Nat × Nat)) (j : Nat) : ImageDescriptor :=
  { atlas_x := s.2.1, atlas_y := s.2.2, point_size := s.1.point_size_enc,
    glyph_index := j }

/-- The metadata entry a successful call `(inp, origin)` appends when it
is assigned slot `j`. -/
def metaOf (s : PackInput × (Nat × Nat)) (j : Nat) : ImageMetadata :=
  { atlas_size := s.1.pixel_size, glyph_index := j, glyph_id := s.1.glyph_id }

/-- The descriptors a pack sequence appends when the builder already
holds `k` descriptors. -/
def descsFrom (k : Nat) : List PackInput → List ImageDescriptor
  | [] => []
  | inp :: rest =>
      match inp.pack_result with
      | none => descsFrom k rest
      | some o => descOf (inp, o) k :: descsFrom (k + 1) rest

/-- The metadata entries a pack sequence appends when the builder already
holds `k` descriptors. -/
def metasFrom (k : Nat) : List PackInput → List ImageMetadata
  | [] => []
  | inp :: rest =>
      match inp.pack_result with
      | none => metasFrom k rest
      | some o => metaOf (inp, o) k :: metasFrom (k + 1) rest

/-- The number of places where an index sequence fails to step by exactly
one: a lower bound (plus one) on how many contiguous batches can emit it. -/
def jumps : List Nat → Nat
  | a :: b :: rest => (if b = a + 1 then 0 else 1) + jumps (b :: rest)
  | _ => 0

/-- A single successful pack call used by the concrete counterexample:
the packed glyph's slot 0 will be assigned the empty geometry range. -/
def cexInput : PackInput := ⟨(1, 1), 7, 0, some (0, 0)⟩

/-- Builder state after packing exactly the one glyph of `cexInput`. -/
def cexBuilder : AtlasBuilder := runPacks AtlasBuilder.new [cexInput]

/-- Outline source assigning slot 0 the empty range `[5, 5)`: its start
offset is 5 and, it being the last slot, its end is the index-buffer
length 5. -/
def cexOutline : OutlineBuilder := ⟨[⟨5⟩], 5⟩

/-- Outline source realising the slot ranges `[0,10)`, `[10,25)`,
`[30,40)` of the spec's range-merge test: slots 0, 1 and 3 of this table
have exactly those ranges (the gap `[25,30)` belongs to the unused slot
2, and slot 3's end is the index-buffer length 40). -/
def obRangeTest : OutlineBuilder := ⟨[⟨0⟩, ⟨10⟩, ⟨25⟩, ⟨30⟩], 40⟩

/-- Metadata whose three entries name the slots of `obRangeTest` carrying
the ranges `[0,10)`, `[10,25)`, `[30,40)`, already in ascending
`glyph_index` order. -/
def metasRangeTest : List ImageMetadata :=
  [⟨(1, 1), 0, 5⟩, ⟨(1, 1), 1, 6⟩, ⟨(1, 1), 3, 7⟩]

/-! ## Basic facts about `pack_glyph` -/

theorem extendDescriptors_succ (l : List ImageDescriptor) :
    extendDescriptors l (l.length + 1) = l ++ [default] := by
  rw [extendDescriptors, if_pos (by omega), extendDescriptors, if_neg (by simp)]

theorem pack_glyph_some (b : AtlasBuilder) (inp : PackInput) (o : Nat × Nat)
    (h : inp.pack_result = some o) :
    pack_glyph b inp =
      (.ok (), { image_descriptors :=
                   b.image_descriptors ++ [descOf (inp, o) b.image_descriptors.length],
                 image_metadata :=
                   b.image_metadata ++ [metaOf (inp, o) b.image_descriptors.length] }) := by
  unfold pack_glyph
  rw [h]
  simp only []
  rw [extendDescriptors_succ, List.set_append_right _ _ (Nat.le_refl _)]
  simp [descOf, metaOf]

theorem pack_glyph_none (b : AtlasBuilder) (inp : PackInput)
    (h : inp.pack_result = none) :
    pack_glyph b inp = (.error (), b) := by
  unfold pack_glyph
  rw [h]

/-! ## The shape of a reachable builder state -/

theorem runPacks_eq (inputs : List PackInput) : ∀ b : AtlasBuilder,
    runPacks b inputs =
      { image_descriptors :=
          b.image_descriptors ++ descsFrom b.image_descriptors.length inputs,
        image_metadata :=
          b.image_metadata ++ metasFrom b.image_descriptors.length inputs } := by
  induction inputs with
  | nil => intro b; simp [runPacks, descsFrom, metasFrom]
  | cons inp rest ih =>
      intro b
      cases hp : inp.pack_result with
      | none =>
          have h2 : (pack_glyph b inp).2 = b := by rw [pack_glyph_none b inp hp]
          rw [runPacks, h2, ih b]
          simp only [descsFrom, metasFrom, hp]
      | some o =>
          have h2 : (pack_glyph b inp).2 =
              { image_descriptors :=
                  b.image_descriptors ++ [descOf (inp, o) b.image_descriptors.length],
                image_metadata :=
                  b.image_metadata ++ [metaOf (inp, o) b.image_descriptors.length] } := by
            rw [pack_glyph_some b inp o hp]
          rw [runPacks, h2, ih]
          simp [descsFrom, metasFrom, hp, List.append_assoc]

theorem length_descsFrom (inputs : List PackInput) : ∀ k,
    (descsFrom k inputs).length = (successList inputs).length := by
  induction inputs with
  | nil => intro k; rfl
  | cons inp rest ih =>
      intro k
      cases hp : inp.pack_result <;>
        simp [descsFrom, successList, hp, ih]

theorem length_metasFrom (inputs : List PackInput) : ∀ k,
    (metasFrom k inputs).length = (successList inputs).length := by
  induction inputs with
  | nil => intro k; rfl
  | cons inp rest ih =>
      intro k
      cases hp : inp.pack_result <;>
        simp [metasFrom, successList, hp, ih]

theorem getD_descsFrom (inputs : List PackInput) : ∀ k i,
    i < (successList inputs).length →
    (descsFrom k inputs).getD i default
      = descOf ((successList inputs).getD i default) (k + i) := by
  induction inputs with
  | nil => intro k i h; cases h
  | cons inp rest ih =>
      intro k i h
      cases hp : inp.pack_result with
      | none =>
          simp only [descsFrom, successList, hp]
          exact ih k i (by simpa [successList, hp] using h)
      | some o =>
          simp only [descsFrom, successList, hp]
          cases i with
          | zero => simp
          | succ i =>
              have h' : i < (successList rest).length := by
                simp [successList, hp] at h; omega
              have := ih (k + 1) i h'
              simpa [Nat.add_assoc, Nat.add_comm 1 i] using this

theorem getD_metasFrom (inputs : List PackInput) : ∀ k i,
    i < (successList inputs).length →
    (metasFrom k inputs).getD i default
      = metaOf ((successList inputs).getD i default) (k + i) := by
  induction inputs with
  | nil => intro k i h; cases h
  | cons inp rest ih =>
      intro k i h
      cases hp : inp.pack_result with
      | none =>
          simp only [metasFrom, successList, hp]
          exact ih k i (by simpa [successList, hp] using h)
      | some o =>
          simp only [metasFrom, successList, hp]
          cases i with
          | zero => simp
          | succ i =>
              have h' : i < (successList rest).length := by
                simp [successList, hp] at h; omega
              have := ih (k + 1) i h'
              simpa [Nat.add_assoc, Nat.add_comm 1 i] using this

theorem metasFrom_ge (inputs : List PackInput) : ∀ k m,
    m ∈ metasFrom k inputs → k ≤ m.glyph_index := by
  induction inputs with
  | nil => intro k m h; cases h
  | cons inp rest ih =>
      intro k m h
      cases hp : inp.pack_result with
      | none =>
          simp only [metasFrom, hp] at h
          exact ih k m h
      | some o =>
          simp only [metasFrom, hp, List.mem_cons] at h
          rcases h with rfl | h
          · exact Nat.le_refl _
          · exact Nat.le_of_succ_le (ih (k + 1) m h)

theorem metasFrom_sorted (inputs : List PackInput) : ∀ k,
    List.Pairwise (fun a b : ImageMetadata => a.glyph_index ≤ b.glyph_index)
      (metasFrom k inputs) := by
  induction inputs with
  | nil => intro k; exact List.Pairwise.nil
  | cons inp rest ih =>
      intro k
      cases hp : inp.pack_result with
      | none => simpa only [metasFrom, hp] using ih k
      | some o =>
          simp only [metasFrom, hp]
          refine List.Pairwise.cons ?_ (ih (k + 1))
          intro m hm
          exact Nat.le_of_succ_le (metasFrom_ge rest (k + 1) m hm)

/-! ## Claim C4 -/

/-- Claim C4: when the shelf packer reports no room for the requested
rectangle, `pack_glyph` returns the out-of-space error and leaves the
builder — descriptor array and metadata list, lengths and contents —
exactly unchanged. -/
theorem c4_pack_failure_leaves_builder_unchanged (b : AtlasBuilder) (inp : PackInput)
    (h : inp.pack_result = none) :
    pack_glyph b inp = (.error (), b) :=
  pack_glyph_none b inp h

/-- Witness for C4 at a concrete builder and a concrete failing call. -/
theorem c4_witness :
    pack_glyph { image_descriptors := [⟨1, 2, 3, 0⟩],
                 image_metadata := [⟨(1, 1), 0, 4⟩] } ⟨(3, 4), 9, 2, none⟩
      = (.error (), { image_descriptors := [⟨1, 2, 3, 0⟩],
                      image_metadata := [⟨(1, 1), 0, 4⟩] }) :=
  c4_pack_failure_leaves_builder_unchanged _ ⟨(3, 4), 9, 2, none⟩ rfl

/-! ## Claim C7 -/

/-- Claim C7: a successful `pack_glyph` call leaves every previously
recorded descriptor and metadata entry (all positions below the newly
assigned slot index) unchanged: the old arrays are a prefix of the new
ones. -/
theorem c7_pack_never_overwrites (b : AtlasBuilder) (inp : PackInput)
    (h : (pack_glyph b inp).1 = .ok ()) :
    (pack_glyph b inp).2.image_descriptors.take b.image_descriptors.length
        = b.image_descriptors ∧
    (pack_glyph b inp).2.image_metadata.take b.image_metadata.length
        = b.image_metadata := by
  cases hp : inp.pack_result with
  | none =>
      rw [pack_glyph_none b inp hp] at h
      cases h
  | some o =>
      rw [pack_glyph_some b inp o hp]
      constructor <;> simp

/-- Witness for C7 at a concrete builder and a concrete successful call. -/
theorem c7_witness :
    ((pack_glyph { image_descriptors := [⟨1, 2, 3, 0⟩],
                   image_metadata := [⟨(1, 1), 0, 4⟩] }
        ⟨(3, 4), 9, 2, some (7, 8)⟩).2.image_descriptors.take 1 = [⟨1, 2, 3, 0⟩]) ∧
    ((pack_glyph { image_descriptors := [⟨1, 2, 3, 0⟩],
                   image_metadata := [⟨(1, 1), 0, 4⟩] }
        ⟨(3, 4), 9, 2, some (7, 8)⟩).2.image_metadata.take 1 = [⟨(1, 1), 0, 4⟩]) :=
  c7_pack_never_overwrites
    { image_descriptors := [⟨1, 2, 3, 0⟩], image_metadata := [⟨(1, 1), 0, 4⟩] }
    ⟨(3, 4), 9, 2, some (7, 8)⟩ rfl

/-! ## Claim C3 -/

theorem assignedSlots_eq (inputs : List PackInput) : ∀ b : AtlasBuilder,
    assignedSlots b inputs
      = List.range' b.image_descriptors.length (successList inputs).length := by
  induction inputs with
  | nil => intro b; rfl
  | cons inp rest ih =>
      intro b
      cases hp : inp.pack_result with
      | none =>
          have h2 : (pack_glyph b inp).2 = b := by rw [pack_glyph_none b inp hp]
          simp only [assignedSlots, successList, hp, h2, ih]
      | some o =>
          have h2 : (pack_glyph b inp).2 =
              { image_descriptors :=
                  b.image_descriptors ++ [descOf (inp, o) b.image_descriptors.length],
                image_metadata :=
                  b.image_metadata ++ [metaOf (inp, o) b.image_descriptors.length] } := by
            rw [pack_glyph_some b inp o hp]
          simp only [assignedSlots, successList, hp, h2, ih]
          simp [List.range'_succ]

/-- Claim C3: after any sequence of pack calls on a fresh builder, the
descriptor array's length is exactly the number of successful calls, and
the slot indices the successful calls received are `0, 1, ..., n-1` in
the order the calls succeeded. -/
theorem c3_dense_consecutive_slots (inputs : List PackInput) :
    (runPacks AtlasBuilder.new inputs).image_descriptors.length
        = (successList inputs).length ∧
    assignedSlots AtlasBuilder.new inputs = List.range (successList inputs).length := by
  constructor
  · rw [runPacks_eq]
    simp [AtlasBuilder.new, length_descsFrom]
  · rw [assignedSlots_eq, List.range_eq_range']
    rfl

/-! ## Claim C9 -/

/-- Claim C9: in every builder state reachable from a fresh builder the
descriptor array and metadata list have equal length and position `i` of
each stores slot index `i`; moreover every single `pack_glyph` call
preserves this invariant. -/
theorem c9_builder_invariant :
    (∀ inputs : List PackInput, builderInv (runPacks AtlasBuilder.new inputs)) ∧
    (∀ (b : AtlasBuilder) (inp : PackInput),
      builderInv b → builderInv (pack_glyph b inp).2) := by
  constructor
  · intro inputs
    rw [runPacks_eq]
    refine ⟨?_, ?_, ?_⟩
    · simp [AtlasBuilder.new, length_descsFrom, length_metasFrom]
    · intro i hi
      simp only [AtlasBuilder.new, List.nil_append, List.length_nil] at hi ⊢
      rw [length_descsFrom] at hi
      rw [getD_descsFrom inputs 0 i hi]
      simp [descOf]
    · intro i hi
      simp only [AtlasBuilder.new, List.nil_append, List.length_nil] at hi ⊢
      rw [length_metasFrom] at hi
      rw [getD_metasFrom inputs 0 i hi]
      simp [metaOf]
  · intro b inp hinv
    cases hp : inp.pack_result with
    | none =>
        have h2 : (pack_glyph b inp).2 = b := by rw [pack_glyph_none b inp hp]
        rwa [h2]
    | some o =>
        have h2 : (pack_glyph b inp).2 =
            { image_descriptors :=
                b.image_descriptors ++ [descOf (inp, o) b.image_descriptors.length],
              image_metadata :=
                b.image_metadata ++ [metaOf (inp, o) b.image_descriptors.length] } := by
          rw [pack_glyph_some b inp o hp]
        rw [h2]
        obtain ⟨hlen, hdesc, hmeta⟩ := hinv
        refine ⟨by simp [hlen], ?_, ?_⟩
        · intro i hi
          simp only [List.length_append, List.length_cons, List.length_nil] at hi
          rcases Nat.lt_or_ge i b.image_descriptors.length with hlt | hge
          · rw [List.getD_append _ _ _ _ hlt]
            exact hdesc i hlt
          · have hieq : i = b.image_descriptors.length := by omega
            subst hieq
            rw [List.getD_append_right _ _ _ _ hge]
            simp [descOf]
        · intro i hi
          simp only [List.length_append, List.length_cons, List.length_nil] at hi
          rcases Nat.lt_or_ge i b.image_metadata.length with hlt | hge
          · rw [List.getD_append _ _ _ _ hlt]
            exact hmeta i hlt
          · have hieq : i = b.image_metadata.length := by omega
            subst hieq
            rw [List.getD_append_right _ _ _ _ hge]
            simp [metaOf, hlen]

/-- Witness for C9's preservation part at a concrete builder state and a
concrete successful call. -/
theorem c9_witness :
    builderInv (pack_glyph { image_descriptors := [⟨1, 2, 3, 0⟩],
                             image_metadata := [⟨(1, 1), 0, 4⟩] }
      ⟨(3, 4), 9, 2, some (7, 8)⟩).2 :=
  c9_builder_invariant.2
    { image_descriptors := [⟨1, 2, 3, 0⟩], image_metadata := [⟨(1, 1), 0, 4⟩] }
    ⟨(3, 4), 9, 2, some (7, 8)⟩ (by decide)

/-! ## Claim C6 -/

/-- Claim C6: for every slot index below the number of successfully
packed glyphs, `atlas_rect` returns the rectangle whose origin is exactly
the placement the shelf packer returned for that glyph's pack request and
whose size is exactly the (ceiled) pixel bounding size the outline source
reported for it. -/
theorem c6_atlas_rect_correct (inputs : List PackInput) (i : Nat)
    (h : i < (successList inputs).length) :
    atlas_rect (runPacks AtlasBuilder.new inputs) i =
      { origin := ((successList inputs).getD i default).2,
        size := ((successList inputs).getD i default).1.pixel_size } := by
  rw [runPacks_eq]
  unfold atlas_rect
  simp only [AtlasBuilder.new, List.nil_append, List.length_nil]
  rw [getD_descsFrom inputs 0 i h, getD_metasFrom inputs 0 i h]
  rfl

/-- Witness for C6: pack two glyphs, read back slot 1. -/
theorem c6_witness :
    atlas_rect (runPacks AtlasBuilder.new
        [⟨(8, 8), 3, 1, some (0, 0)⟩, ⟨(16, 16), 4, 1, some (8, 0)⟩]) 1 =
      { origin := ((successList
            [⟨(8, 8), 3, 1, some (0, 0)⟩, ⟨(16, 16), 4, 1, some (8, 0)⟩]).getD 1 default).2,
        size := ((successList
            [⟨(8, 8), 3, 1, some (0, 0)⟩, ⟨(16, 16), 4, 1, some (8, 0)⟩]).getD 1
          default).1.pixel_size } :=
  c6_atlas_rect_correct
    [⟨(8, 8), 3, 1, some (0, 0)⟩, ⟨(16, 16), 4, 1, some (8, 0)⟩] 1 (by decide)

/-! ## Claim C10 -/

theorem reachable_metadata_sorted (inputs : List PackInput) :
    List.Pairwise (fun a b : ImageMetadata => a.glyph_index ≤ b.glyph_index)
      (runPacks AtlasBuilder.new inputs).image_metadata := by
  rw [runPacks_eq]
  simpa [AtlasBuilder.new] using metasFrom_sorted inputs 0

/-- Claim C10: in every reachable builder state the metadata list is
already sorted ascending by `glyph_index`, so the sort at the start of
`create_atlas` leaves it exactly unchanged — in particular finalizing
never reorders the metadata and never changes any later
`glyph_index_for` answer. -/
theorem c10_finalize_sort_is_identity (inputs : List PackInput) :
    sortMetadata (runPacks AtlasBuilder.new inputs).image_metadata
        = (runPacks AtlasBuilder.new inputs).image_metadata ∧
    ∀ (ob : OutlineBuilder) (images shelf_height shelf_columns glyph_id : Nat),
      glyph_index_for
          (create_atlas (runPacks AtlasBuilder.new inputs) ob
            images shelf_height shelf_columns).2 glyph_id
        = glyph_index_for (runPacks AtlasBuilder.new inputs) glyph_id := by
  have hsort : sortMetadata (runPacks AtlasBuilder.new inputs).image_metadata
      = (runPacks AtlasBuilder.new inputs).image_metadata :=
    List.Sorted.insertionSort_eq (reachable_metadata_sorted inputs)
  refine ⟨hsort, ?_⟩
  intro ob images shelf_height shelf_columns glyph_id
  unfold create_atlas
  simp only [hsort]

/-! ## Claim C2 -/

/-- Claim C2: on the three per-slot ranges `[0,10)`, `[10,25)`, `[30,40)`
in slot order, the merge of `create_atlas` produces exactly the two draw
batches `(0, 25)` and `(30, 10)` — stated both for the merge on the raw
range list and for the full metadata-driven loop over an outline source
whose slots carry exactly those ranges. -/
theorem c2_range_merge_test :
    mergeRanges [(0, 10), (10, 25), (30, 40)] none = [(0, 25), (30, 10)] ∧
    metasRangeTest.map (fun m => slotRange obRangeTest m.glyph_index)
        = [(0, 10), (10, 25), (30, 40)] ∧
    mergeLoop obRangeTest (sortMetadata metasRangeTest) none = [(0, 25), (30, 10)] := by
  decide

/-! ## Binary search: soundness and completeness on sorted metadata -/

theorem sorted_getD_le (metas : List ImageMetadata)
    (hs : List.Pairwise (fun m₁ m₂ : ImageMetadata => m₁.glyph_id ≤ m₂.glyph_id) metas)
    (i j : Nat) (hij : i ≤ j) (hj : j < metas.length) :
    (metas.getD i default).glyph_id ≤ (metas.getD j default).glyph_id := by
  rcases Nat.lt_or_ge i j with hlt | hge
  · have hi : i < metas.length := Nat.lt_trans hlt hj
    rw [List.getD_eq_getElem _ _ hi, List.getD_eq_getElem _ _ hj]
    exact List.pairwise_iff_get.mp hs ⟨i, hi⟩ ⟨j, hj⟩ hlt
  · have hij2 : i = j := by omega
    subst hij2
    exact Nat.le_refl _

theorem binarySearchBy_some (metas : List ImageMetadata) (q : Nat) :
    ∀ (n left right i : Nat), right - left ≤ n → right ≤ metas.length →
    binarySearchBy metas q left right = some i →
    i < metas.length ∧ (metas.getD i default).glyph_id = q := by
  intro n
  induction n with
  | zero =>
      intro left right i hn hr hbs
      rw [binarySearchBy, dif_neg (by omega)] at hbs
      cases hbs
  | succ n ih =>
      intro left right i hn hr hbs
      by_cases h : left < right
      · rw [binarySearchBy, dif_pos h] at hbs
        by_cases h1 : (metas.getD (left + (right - left) / 2) default).glyph_id < q
        · rw [if_pos h1] at hbs
          exact ih (left + (right - left) / 2 + 1) right i (by omega) hr hbs
        · rw [if_neg h1] at hbs
          by_cases h2 : q < (metas.getD (left + (right - left) / 2) default).glyph_id
          · rw [if_pos h2] at hbs
            exact ih left (left + (right - left) / 2) i (by omega) (by omega) hbs
          · rw [if_neg h2] at hbs
            cases hbs
            exact ⟨by omega, by omega⟩
      · rw [binarySearchBy, dif_neg h] at hbs
        cases hbs

theorem binarySearchBy_none (metas : List ImageMetadata) (q : Nat)
    (hs : List.Pairwise (fun m₁ m₂ : ImageMetadata => m₁.glyph_id ≤ m₂.glyph_id) metas) :
    ∀ (n left right : Nat), right - left ≤ n → right ≤ metas.length →
    binarySearchBy metas q left right = none →
    ∀ j, left ≤ j → j < right → (metas.getD j default).glyph_id ≠ q := by
  intro n
  induction n with
  | zero =>
      intro left right hn hr hbs j hj1 hj2
      omega
  | succ n ih =>
      intro left right hn hr hbs j hj1 hj2
      have h : left < right := by omega
      rw [binarySearchBy, dif_pos h] at hbs
      by_cases h1 : (metas.getD (left + (right - left) / 2) default).glyph_id < q
      · rw [if_pos h1] at hbs
        rcases Nat.lt_or_ge j (left + (right - left) / 2 + 1) with hjm | hjm
        · have hle := sorted_getD_le metas hs j (left + (right - left) / 2)
            (by omega) (by omega)
          omega
        · exact ih (left + (right - left) / 2 + 1) right (by omega) hr hbs j hjm hj2
      · rw [if_neg h1] at hbs
        by_cases h2 : q < (metas.getD (left + (right - left) / 2) default).glyph_id
        · rw [if_pos h2] at hbs
          rcases Nat.lt_or_ge j (left + (right - left) / 2) with hjm | hjm
          · exact ih left (left + (right - left) / 2) (by omega) (by omega) hbs j hj1 hjm
          · have hle := sorted_getD_le metas hs (left + (right - left) / 2) j hjm
              (by omega)
            omega
        · rw [if_neg h2] at hbs
          cases hbs

/-! ## Claim C5 -/

/-- Claim C5: whenever the metadata list is sorted by `glyph_id`,
`glyph_index_for` answers `none` exactly when no metadata entry carries
the queried `glyph_id`, and any `some slot_index` answer is the
`glyph_index` field of a metadata entry whose `glyph_id` equals the
query. -/
theorem c5_glyph_index_for_correct (b : AtlasBuilder) (glyph_id : Nat)
    (hs : List.Pairwise (fun m₁ m₂ : ImageMetadata => m₁.glyph_id ≤ m₂.glyph_id)
      b.image_metadata) :
    (glyph_index_for b glyph_id = none ↔
      ∀ m ∈ b.image_metadata, m.glyph_id ≠ glyph_id) ∧
    (∀ idx, glyph_index_for b glyph_id = some idx →
      ∃ m ∈ b.image_metadata, m.glyph_id = glyph_id ∧ m.glyph_index = idx) := by
  refine ⟨⟨?_, ?_⟩, ?_⟩
  · intro hnone m hm hq
    unfold glyph_index_for at hnone
    cases hbs : binarySearchBy b.image_metadata glyph_id 0 b.image_metadata.length with
    | some i => rw [hbs] at hnone; cases hnone
    | none =>
        obtain ⟨j, hj, hget⟩ := List.mem_iff_getElem.mp hm
        have hne := binarySearchBy_none b.image_metadata glyph_id hs
          b.image_metadata.length 0 b.image_metadata.length (by omega)
          (Nat.le_refl _) hbs j (Nat.zero_le j) hj
        apply hne
        rw [List.getD_eq_getElem _ _ hj, hget, hq]
  · intro hall
    unfold glyph_index_for
    cases hbs : binarySearchBy b.image_metadata glyph_id 0 b.image_metadata.length with
    | none => rfl
    | some i =>
        obtain ⟨hi, hkey⟩ := binarySearchBy_some b.image_metadata glyph_id
          b.image_metadata.length 0 b.image_metadata.length i (by omega)
          (Nat.le_refl _) hbs
        have hmem : b.image_metadata.getD i default ∈ b.image_metadata := by
          rw [List.getD_eq_getElem _ _ hi]
          exact List.getElem_mem hi
        exact absurd hkey (hall _ hmem)
  · intro idx hsome
    unfold glyph_index_for at hsome
    cases hbs : binarySearchBy b.image_metadata glyph_id 0 b.image_metadata.length with
    | none => rw [hbs] at hsome; cases hsome
    | some i =>
        rw [hbs] at hsome
        obtain ⟨hi, hkey⟩ := binarySearchBy_some b.image_metadata glyph_id
          b.image_metadata.length 0 b.image_metadata.length i (by omega)
          (Nat.le_refl _) hbs
        have hmem : b.image_metadata.getD i default ∈ b.image_metadata := by
          rw [List.getD_eq_getElem _ _ hi]
          exact List.getElem_mem hi
        exact ⟨b.image_metadata.getD i default, hmem, hkey, Option.some.inj hsome⟩

/-- Witness for C5 on a concrete sorted metadata list: an absent
identifier answers `none`. -/
theorem c5_witness :
    glyph_index_for
      { image_descriptors := [], image_metadata := [⟨(1, 1), 0, 5⟩, ⟨(2, 2), 1, 9⟩] }
      7 = none :=
  (c5_glyph_index_for_correct
      { image_descriptors := [], image_metadata := [⟨(1, 1), 0, 5⟩, ⟨(2, 2), 1, 9⟩] }
      7 (by decide)).1.mpr (by decide)

/-! ## Claim C8 -/

/-- Claim C8: `create_atlas` has no failure path of its own — the GL
calls surface no error to it — so under the claim's precondition (the
outline source covers every packed slot, which is also what keeps the
Rust descriptor indexing in bounds) it returns a successfully
constructed `Atlas`. -/
theorem c8_finalize_always_succeeds (b : AtlasBuilder) (ob : OutlineBuilder)
    (images shelf_height shelf_columns : Nat)
    (_hcov : ∀ m ∈ b.image_metadata, m.glyph_index < ob.descriptors.length) :
    ((create_atlas b ob images shelf_height shelf_columns).1).isOk = true := by
  rfl

/-- Witness for C8 on a concrete builder and covering outline source. -/
theorem c8_witness :
    ((create_atlas
        { image_descriptors := [⟨0, 0, 1, 0⟩], image_metadata := [⟨(1, 1), 0, 4⟩] }
        ⟨[⟨0⟩], 6⟩ 1 2 3).1).isOk = true :=
  c8_finalize_always_succeeds
    { image_descriptors := [⟨0, 0, 1, 0⟩], image_metadata := [⟨(1, 1), 0, 4⟩] }
    ⟨[⟨0⟩], 6⟩ 1 2 3 (by decide)

/-! ## The merge loop: coverage and minimality -/

theorem mergeLoop_eq_mergeRanges (ob : OutlineBuilder) (metas : List ImageMetadata) :
    ∀ cur, mergeLoop ob metas cur
      = mergeRanges (metas.map (fun m => slotRange ob m.glyph_index)) cur := by
  induction metas with
  | nil =>
      intro cur
      cases cur with
      | none => rfl
      | some c => obtain ⟨cf, cl⟩ := c; rfl
  | cons m rest ih =>
      intro cur
      cases cur with
      | none =>
          simp only [mergeLoop, List.map_cons, slotRange, mergeRanges]
          exact ih _
      | some c =>
          obtain ⟨cf, cl⟩ := c
          simp only [mergeLoop, List.map_cons, slotRange, mergeRanges]
          split_ifs with hf
          · exact ih _
          · exact congrArg _ (ih _)

theorem mergeRanges_covers_some (rs : List (Nat × Nat)) :
    ∀ cf cl, (∀ r ∈ rs, r.1 ≤ r.2) → cf ≤ cl →
    (mergeRanges rs (some (cf, cl))).flatMap batchIndices
      = List.range' cf (cl - cf) ++ specGeometry rs := by
  induction rs with
  | nil =>
      intro cf cl _ _
      simp [mergeRanges, batchIndices, specGeometry]
  | cons r rest ih =>
      obtain ⟨f, l⟩ := r
      intro cf cl hwf hle
      have hfl : f ≤ l := hwf (f, l) (List.mem_cons_self _ _)
      have hwf' : ∀ r ∈ rest, r.1 ≤ r.2 := fun r hr => hwf r (List.mem_cons_of_mem _ hr)
      simp only [mergeRanges]
      split_ifs with hf
      · subst hf
        rw [ih cf l hwf' (Nat.le_trans hle hfl)]
        have hjoin : List.range' cf (f - cf) ++ List.range' f (l - f)
            = List.range' cf (l - cf) := by
          have h1 : cf + 1 * (f - cf) = f := by omega
          have h2 : (l - f) + (f - cf) = l - cf := by omega
          have h3 := List.range'_append cf (f - cf) (l - f) 1
          rw [h1, h2] at h3
          exact h3
        simp only [specGeometry, List.flatMap_cons, rangeIndices]
        rw [← List.append_assoc, hjoin]
      · rw [List.flatMap_cons, ih f l hwf' hfl]
        simp only [specGeometry, List.flatMap_cons, rangeIndices, batchIndices,
          List.append_assoc]

theorem mergeRanges_covers (rs : List (Nat × Nat)) (hwf : ∀ r ∈ rs, r.1 ≤ r.2) :
    SpecCovers rs (mergeRanges rs none) := by
  cases rs with
  | nil => rfl
  | cons r rest =>
      obtain ⟨f, l⟩ := r
      have hfl : f ≤ l := hwf (f, l) (List.mem_cons_self _ _)
      have hwf' : ∀ r ∈ rest, r.1 ≤ r.2 := fun r hr => hwf r (List.mem_cons_of_mem _ hr)
      show ((mergeRanges rest (some (f, l))).flatMap batchIndices) = _
      rw [mergeRanges_covers_some rest f l hwf' hfl]
      simp [specGeometry, rangeIndices]

theorem jumps_nil : jumps [] = 0 := rfl

theorem jumps_single (a : Nat) : jumps [a] = 0 := rfl

theorem jumps_cons_cons (a b : Nat) (rest : List Nat) :
    jumps (a :: b :: rest) = (if b = a + 1 then 0 else 1) + jumps (b :: rest) := rfl

theorem jumps_range' : ∀ (n a : Nat), jumps (List.range' a n) = 0 := by
  intro n
  induction n with
  | zero => intro a; rfl
  | succ m ih =>
      intro a
      cases m with
      | zero => rfl
      | succ k =>
          rw [List.range'_succ, List.range'_succ, jumps_cons_cons, if_pos rfl,
            ← List.range'_succ]
          simpa using ih (a + 1)

theorem jumps_append_le : ∀ (xs ys : List Nat), jumps (xs ++ ys) ≤ jumps xs + jumps ys + 1 := by
  intro xs
  induction xs with
  | nil => intro ys; simp [jumps_nil]
  | cons a xs ih =>
      intro ys
      cases xs with
      | nil =>
          cases ys with
          | nil => simp [jumps_single, jumps_nil]
          | cons b t =>
              simp only [List.singleton_append, jumps_cons_cons, jumps_single]
              split_ifs <;> omega
      | cons b xs2 =>
          have h := ih ys
          rw [List.cons_append] at h
          simp only [List.cons_append]
          rw [jumps_cons_cons a b (xs2 ++ ys), jumps_cons_cons a b xs2]
          split_ifs <;> omega

theorem jumps_range'_append : ∀ (n a b : Nat) (ys : List Nat), 0 < n →
    jumps (List.range' a n ++ b :: ys)
      = (if b = a + n then 0 else 1) + jumps (b :: ys) := by
  intro n
  induction n with
  | zero => intro a b ys h; cases h
  | succ m ih =>
      intro a b ys _
      cases m with
      | zero => simp [List.range'_one, jumps_cons_cons]
      | succ k =>
          rw [List.range'_succ, List.cons_append, List.range'_succ, List.cons_append,
            jumps_cons_cons, if_pos rfl, ← List.cons_append, ← List.range'_succ,
            ih (a + 1) b ys (Nat.succ_pos k)]
          have : a + 1 + (k + 1) = a + (k + 1 + 1) := by omega
          rw [this]
          omega

theorem covers_lower_bound : ∀ (bs : List (Nat × Nat)) (g : List Nat),
    bs.flatMap batchIndices = g → g ≠ [] → jumps g + 1 ≤ bs.length := by
  intro bs
  induction bs with
  | nil =>
      intro g hg hne
      exact absurd hg.symm hne
  | cons b rest ih =>
      obtain ⟨s, c⟩ := b
      intro g hg hne
      rw [List.flatMap_cons] at hg
      by_cases h2 : rest.flatMap batchIndices = []
      · rw [h2, List.append_nil] at hg
        have : jumps g = 0 := by
          rw [← hg]
          exact jumps_range' c s
        simp only [List.length_cons]
        omega
      · have ihr := ih (rest.flatMap batchIndices) rfl h2
        have hle := jumps_append_le (batchIndices (s, c)) (rest.flatMap batchIndices)
        rw [hg] at hle
        have hz : jumps (batchIndices (s, c)) = 0 := jumps_range' c s
        simp only [List.length_cons]
        omega

theorem mergeRanges_length_le (rs : List (Nat × Nat)) :
    ∀ cf cl, (∀ r ∈ rs, r.1 < r.2) → cf < cl →
    (mergeRanges rs (some (cf, cl))).length
      ≤ jumps (List.range' cf (cl - cf) ++ specGeometry rs) + 1 := by
  induction rs with
  | nil =>
      intro cf cl _ _
      simp [mergeRanges, specGeometry, jumps_range']
  | cons r rest ih =>
      obtain ⟨f, l⟩ := r
      intro cf cl hne hlt
      have hfl : f < l := hne (f, l) (List.mem_cons_self _ _)
      have hne' : ∀ r ∈ rest, r.1 < r.2 := fun r hr => hne r (List.mem_cons_of_mem _ hr)
      simp only [mergeRanges]
      split_ifs with hf
      · subst hf
        have h := ih cf l hne' (Nat.lt_trans hlt hfl)
        have hjoin : List.range' cf (f - cf) ++ List.range' f (l - f)
            = List.range' cf (l - cf) := by
          have h1 : cf + 1 * (f - cf) = f := by omega
          have h2 : (l - f) + (f - cf) = l - cf := by omega
          have h3 := List.range'_append cf (f - cf) (l - f) 1
          rw [h1, h2] at h3
          exact h3
        simp only [specGeometry, List.flatMap_cons, rangeIndices]
        rw [← List.append_assoc, hjoin]
        exact h
      · have h := ih f l hne' hfl
        have hsplit : List.range' f (l - f) = f :: List.range' (f + 1) (l - f - 1) := by
          conv_lhs => rw [show l - f = (l - f - 1) + 1 from by omega]
          rw [List.range'_succ]
        simp only [specGeometry, List.flatMap_cons, rangeIndices] at h ⊢
        rw [hsplit, List.cons_append]
        rw [jumps_range'_append (cl - cf) cf f _ (by omega)]
        have hfne : ¬ f = cf + (cl - cf) := by omega
        rw [if_neg hfne]
        rw [← List.cons_append, ← hsplit, List.length_cons]
        omega

theorem mergeRanges_minimal (rs : List (Nat × Nat)) (hne : ∀ r ∈ rs, r.1 < r.2) :
    ∀ bs, SpecCovers rs bs → (mergeRanges rs none).length ≤ bs.length := by
  intro bs hcov
  cases rs with
  | nil => simp [mergeRanges]
  | cons r rest =>
      obtain ⟨f, l⟩ := r
      have hfl : f < l := hne (f, l) (List.mem_cons_self _ _)
      have hne' : ∀ r ∈ rest, r.1 < r.2 := fun r hr => hne r (List.mem_cons_of_mem _ hr)
      have hg : specGeometry ((f, l) :: rest) ≠ [] := by
        simp only [specGeometry, List.flatMap_cons, rangeIndices]
        intro hcontra
        rcases List.append_eq_nil.mp hcontra with ⟨h1, _⟩
        rw [List.range'_eq_nil] at h1
        omega
      have h1 := covers_lower_bound bs (specGeometry ((f, l) :: rest)) hcov hg
      have h2 := mergeRanges_length_le rest f l hne' hfl
      have hgeq : List.range' f (l - f) ++ specGeometry rest
          = specGeometry ((f, l) :: rest) := by
        simp [specGeometry, rangeIndices]
      rw [hgeq] at h2
      show (mergeRanges rest (some (f, l))).length ≤ bs.length
      omega

/-! ## Claim C1, amended -/

theorem reachable_meta_length (inputs : List PackInput) :
    (runPacks AtlasBuilder.new inputs).image_metadata.length
      = (successList inputs).length := by
  rw [runPacks_eq]
  simp [AtlasBuilder.new, length_metasFrom]

theorem reachable_meta_glyph_index (inputs : List PackInput) (i : Nat)
    (h : i < (runPacks AtlasBuilder.new inputs).image_metadata.length) :
    ((runPacks AtlasBuilder.new inputs).image_metadata.getD i default).glyph_index
      = i := by
  rw [reachable_meta_length] at h
  rw [runPacks_eq]
  simp only [AtlasBuilder.new, List.nil_append, List.length_nil]
  rw [getD_metasFrom inputs 0 i h]
  simp [metaOf]

theorem reachable_map_slotRange (inputs : List PackInput) (ob : OutlineBuilder) :
    (runPacks AtlasBuilder.new inputs).image_metadata.map
        (fun m => slotRange ob m.glyph_index)
      = (List.range (runPacks AtlasBuilder.new inputs).image_metadata.length).map
          (slotRange ob) := by
  apply List.ext_getElem
  · simp
  · intro n h1 h2
    rw [List.getElem_map, List.getElem_map, List.getElem_range]
    congr 1
    have hn : n < (runPacks AtlasBuilder.new inputs).image_metadata.length := by
      simpa using h1
    have := reachable_meta_glyph_index inputs n hn
    rw [List.getD_eq_getElem _ _ hn] at this
    exact this

/-- Claim C1, amended: for every sequence of pack calls and every outline
source whose per-slot ranges (start offset to next slot's start offset,
or to the end of the index buffer for the last slot) are well formed
(start ≤ end), the greedy merge of `create_atlas` yields an ordered list
of contiguous `(start, length)` batches covering exactly the packed
glyphs' geometry in slot-index order; when moreover every slot's range is
nonempty, that list is minimal among all ordered contiguous batch lists
covering the geometry.  (The original claim asserted minimality without
the nonemptiness proviso; `c1_counterexample` shows an empty slot range
making the output non-minimal.) -/
theorem c1_merge_covers_and_minimal (inputs : List PackInput) (ob : OutlineBuilder)
    (hwf : ∀ r ∈ (List.range
        (runPacks AtlasBuilder.new inputs).image_metadata.length).map (slotRange ob),
      r.1 ≤ r.2) :
    SpecCovers
        ((List.range (runPacks AtlasBuilder.new inputs).image_metadata.length).map
          (slotRange ob))
        (mergeLoop ob
          (sortMetadata (runPacks AtlasBuilder.new inputs).image_metadata) none) ∧
    ((∀ r ∈ (List.range
        (runPacks AtlasBuilder.new inputs).image_metadata.length).map (slotRange ob),
      r.1 < r.2) →
      ∀ bs, SpecCovers
          ((List.range (runPacks AtlasBuilder.new inputs).image_metadata.length).map
            (slotRange ob)) bs →
        (mergeLoop ob
          (sortMetadata (runPacks AtlasBuilder.new inputs).image_metadata) none).length
          ≤ bs.length) := by
  have hsort : sortMetadata (runPacks AtlasBuilder.new inputs).image_metadata
      = (runPacks AtlasBuilder.new inputs).image_metadata :=
    List.Sorted.insertionSort_eq (reachable_metadata_sorted inputs)
  have hloop : mergeLoop ob
      (sortMetadata (runPacks AtlasBuilder.new inputs).image_metadata) none
      = mergeRanges
          ((List.range (runPacks AtlasBuilder.new inputs).image_metadata.length).map
            (slotRange ob)) none := by
    rw [hsort, mergeLoop_eq_mergeRanges, reachable_map_slotRange]
  constructor
  · rw [hloop]
    exact mergeRanges_covers _ hwf
  · intro hne bs hcov
    rw [hloop]
    exact mergeRanges_minimal _ hne bs hcov

/-- Witness for C1 at one packed glyph whose slot range is `[0, 3)`. -/
theorem c1_witness :
    SpecCovers
        ((List.range (runPacks AtlasBuilder.new
            [⟨(1, 1), 7, 0, some (0, 0)⟩]).image_metadata.length).map
          (slotRange ⟨[⟨0⟩], 3⟩))
        (mergeLoop ⟨[⟨0⟩], 3⟩
          (sortMetadata (runPacks AtlasBuilder.new
            [⟨(1, 1), 7, 0, some (0, 0)⟩]).image_metadata) none) ∧
    (mergeLoop ⟨[⟨0⟩], 3⟩
        (sortMetadata (runPacks AtlasBuilder.new
          [⟨(1, 1), 7, 0, some (0, 0)⟩]).image_metadata) none).length
      ≤ ([(0, 3)] : List (Nat × Nat)).length :=
  ⟨(c1_merge_covers_and_minimal [⟨(1, 1), 7, 0, some (0, 0)⟩] ⟨[⟨0⟩], 3⟩
      (by decide)).1,
   (c1_merge_covers_and_minimal [⟨(1, 1), 7, 0, some (0, 0)⟩] ⟨[⟨0⟩], 3⟩
      (by decide)).2 (by decide) [(0, 3)] (by decide)⟩

/-! ## Claim C1, counterexample -/

/-- Claim C1 fails as stated: after packing one glyph (`cexBuilder`)
whose slot the outline source maps to the empty range `[5, 5)`, the merge
emits the zero-length batch `(5, 0)`, yet the empty batch list already
covers the (empty) geometry exactly — so the produced list is not
minimal. -/
theorem c1_counterexample :
    mergeLoop cexOutline (sortMetadata cexBuilder.image_metadata) none = [(5, 0)] ∧
    SpecCovers ((List.range cexBuilder.image_metadata.length).map (slotRange cexOutline))
      ([] : List (Nat × Nat)) ∧
    ¬ (mergeLoop cexOutline (sortMetadata cexBuilder.image_metadata) none).length ≤
        ([] : List (Nat × Nat)).length := by
  decide

end Pathfinder
